import Mathlib

/-!
Verification of the cleaning pipeline of run_pipeline.py: the IQR winsoriser
iqr_winsorize and the three-stage cleaner clean_dataset, embedded over lists of
optional rationals (none is the missing marker NaN).
-/

namespace Pipeline

/-- A cell of a numeric pandas Series: a rational value or the missing marker. -/
abbrev Cell := Option ℚ

/-- Non-missing values of a series, in order (pandas dropna). -/
def dropNA (s : List Cell) : List ℚ := s.filterMap id

/-- Linear interpolation at fractional position p into a list of values, as in
    the quantile computation of numpy and pandas: with i the floor of p, the
    result is s i plus (p - i) times (s (i+1) - s i). -/
def interpAt (s : List ℚ) (p : ℚ) : ℚ :=
  let i : ℕ := (Int.floor p).toNat
  let x0 := s.getD i 0
  let x1 := s.getD (i + 1) x0
  x0 + (p - (i : ℚ)) * (x1 - x0)

/-- pandas Series.quantile with linear interpolation: missing values are
    dropped, the rest sorted, and the value at position q * (n - 1)
    interpolated; none (NaN) when no value is present. -/
def quantile (s : List Cell) (q : ℚ) : Option ℚ :=
  let xs := dropNA s
  if xs = [] then none
  else
    let srt := List.insertionSort (· ≤ ·) xs
    some (interpAt srt (q * ((xs.length : ℚ) - 1)))

/-- numpy clip of one value into an interval. -/
def clipVal (lower upper v : ℚ) : ℚ := min upper (max lower v)

/-- iqr_winsorize from run_pipeline.py: q1 and q3 are the 0.25 and 0.75
    quantiles, iqr = q3 - q1, and the series is clipped into the interval
    from q1 - k * iqr to q3 + k * iqr.  When the column has no present value
    both quantiles are NaN and pandas clip with NaN bounds leaves the series
    unchanged; a missing entry always passes through clip unchanged. -/
def iqr_winsorize (s : List Cell) (k : ℚ) : List Cell :=
  match quantile s (1/4), quantile s (3/4) with
  | some q1, some q3 =>
      let iqr := q3 - q1
      let lower := q1 - k * iqr
      let upper := q3 + k * iqr
      s.map (Option.map (clipVal lower upper))
  | _, _ => s

/-- A pandas DataFrame: named columns in order, each a list of cells. -/
structure DataFrame where
  cols : List (String × List Cell)
deriving DecidableEq

/-- Row mask of stage 1: keep a row when loyer_mensuel is missing or at
    least zero. -/
def keepRow (o : Cell) : Bool :=
  match o with
  | none => true
  | some v => decide (0 ≤ v)

/-- Keep the entries of xs whose mask bit is true (boolean row indexing). -/
def maskFilter (mask : List Bool) (xs : List α) : List α :=
  ((xs.zip mask).filter (fun p => p.2)).map (fun p => p.1)

/-- Stage 1 of clean_dataset: when loyer_mensuel exists, drop every row whose
    value there is present and strictly negative. -/
def stage1 (df : DataFrame) : DataFrame :=
  match df.cols.lookup "loyer_mensuel" with
  | none => df
  | some lc =>
      let mask := lc.map keepRow
      ⟨df.cols.map (fun p => (p.1, maskFilter mask p.2))⟩

/-- Column assignment df[name] = f (df[name]) when the column exists;
    identity otherwise. -/
def setCol (df : DataFrame) (name : String) (f : List Cell → List Cell) : DataFrame :=
  ⟨df.cols.map (fun p => if p.1 = name then (p.1, f p.2) else p)⟩

/-- The outlier policy list cols_with_outliers of run_pipeline.py. -/
def cols_with_outliers : List String :=
  ["taille", "poids", "revenu_estime_mois", "montant_pret"]

/-- Stage 2: IQR winsorisation with k = 1.5 on each outlier column present. -/
def stage2 (df : DataFrame) : DataFrame :=
  cols_with_outliers.foldl (fun d c => setCol d c (fun col => iqr_winsorize col (3/2))) df

/-- Series.fillna with a scalar: nothing is filled when the scalar is NaN. -/
def fillna (s : List Cell) (m : Option ℚ) : List Cell :=
  match m with
  | none => s
  | some v => s.map (fun o => some (o.getD v))

/-- Stage-3 body for one column: when missing values exist, fill them with the
    median (the 0.5 quantile) of the present values. -/
def imputeCol (s : List Cell) : List Cell :=
  if 0 < s.countP (fun o => o.isNone) then fillna s (quantile s (1/2)) else s

/-- The imputation policy list cols_to_impute of run_pipeline.py. -/
def cols_to_impute : List String :=
  ["historique_credits", "score_credit", "loyer_mensuel"]

/-- Stage 3: median imputation on each impute column present. -/
def stage3 (df : DataFrame) : DataFrame :=
  cols_to_impute.foldl (fun d c => setCol d c imputeCol) df

/-- clean_dataset from run_pipeline.py: business-rule filter, winsorisation,
    then median imputation. -/
def clean_dataset (df : DataFrame) : DataFrame :=
  stage3 (stage2 (stage1 df))

/-- Restriction of a column to the rows surviving stage 1, given the raw
    loyer_mensuel column when present. -/
def survivors (business : Option (List Cell)) (c : List Cell) : List Cell :=
  match business with
  | none => c
  | some lc => maskFilter (lc.map keepRow) c

/-- What the pipeline does to one named column, as a function of that column
    and of the raw loyer_mensuel column only. -/
def cleanCol (business : Option (List Cell)) (name : String) (c : List Cell) : List Cell :=
  let c1 := survivors business c
  let c2 := if name ∈ cols_with_outliers then iqr_winsorize c1 (3/2) else c1
  if name ∈ cols_to_impute then imputeCol c2 else c2

/-- A row violating the business rule: rent present and strictly negative. -/
def isBadRent (o : Cell) : Bool :=
  match o with
  | none => false
  | some v => decide (v < 0)

/-- A heap of Python DataFrame objects, addressed by allocation order. -/
abbrev Heap := List DataFrame

/-- Reading the object at an address. -/
def heapRead (h : Heap) (a : ℕ) : DataFrame := h.getD a ⟨[]⟩

/-- Allocating a fresh object, returning the new heap and its address. -/
def heapAlloc (h : Heap) (v : DataFrame) : Heap × ℕ := (h ++ [v], h.length)

/-- Overwriting the object at an address. -/
def heapWrite (h : Heap) (a : ℕ) (v : DataFrame) : Heap := h.set a v

/-- clean_dataset at the level of Python object mutation: df.copy() allocates a
    fresh frame, the stage-1 boolean row indexing allocates another, and the
    per-column assignments of stages 2 and 3 write only to that local frame,
    never to the caller's argument object. Returns the final heap and the
    address of the returned frame. -/
def clean_dataset_heap (h : Heap) (a : ℕ) : Heap × ℕ :=
  let p1 := heapAlloc h (heapRead h a)
  let h1 := p1.1
  let b := p1.2
  let p2 :=
    match (heapRead h1 b).cols.lookup "loyer_mensuel" with
    | none => (h1, b)
    | some _ => heapAlloc h1 (stage1 (heapRead h1 b))
  let h2 := p2.1
  let b2 := p2.2
  let h3 := heapWrite h2 b2 (stage2 (heapRead h2 b2))
  let h4 := heapWrite h3 b2 (stage3 (heapRead h3 b2))
  (h4, b2)

/-! ### Lemmas about linear-interpolation quantiles -/

/-- A getD at an in-range index does not depend on the default. -/
lemma getD_irrel {s : List ℚ} {i : ℕ} (h : i < s.length) (d d' : ℚ) :
    s.getD i d = s.getD i d' := by
  simp [List.getD_eq_getElem?_getD, List.getElem?_eq_getElem h]

/-- In a sorted list, values at increasing indices increase. -/
lemma sorted_getD_mono {s : List ℚ} (hs : List.Sorted (· ≤ ·) s) {a b : ℕ}
    (hab : a ≤ b) (hb : b < s.length) : s.getD a 0 ≤ s.getD b 0 := by
  have ha : a < s.length := lt_of_le_of_lt hab hb
  rw [List.getD_eq_getElem?_getD, List.getD_eq_getElem?_getD,
    List.getElem?_eq_getElem ha, List.getElem?_eq_getElem hb]
  simpa using hs.rel_get_of_le (a := ⟨a, ha⟩) (b := ⟨b, hb⟩) hab

/-- The interpolation position floor stays inside the list. -/
lemma floor_pos_lt_length {s : List ℚ} {p : ℚ} (hne : s ≠ [])
    (hp0 : 0 ≤ p) (hpn : p ≤ (s.length : ℚ) - 1) : (⌊p⌋).toNat < s.length := by
  have hn : 1 ≤ s.length := List.length_pos.mpr hne
  have h1 : ⌊p⌋ ≤ (s.length : ℤ) - 1 := by
    have h2 : ((s.length : ℚ) - 1) = (((s.length : ℤ) - 1 : ℤ) : ℚ) := by push_cast; ring
    have h3 := Int.floor_le_floor (α := ℚ) (hpn.trans_eq h2)
    rwa [Int.floor_intCast] at h3
  have h0 : 0 ≤ ⌊p⌋ := Int.floor_nonneg.mpr hp0
  omega

/-- Cast of the truncated floor back to the rationals, for nonnegative p. -/
lemma cast_toNat_floor {p : ℚ} (hp0 : 0 ≤ p) : (((⌊p⌋).toNat : ℕ) : ℚ) = (⌊p⌋ : ℚ) := by
  have h0 : 0 ≤ ⌊p⌋ := Int.floor_nonneg.mpr hp0
  exact_mod_cast Int.toNat_of_nonneg h0

/-- The interpolated value lies between any bounds enclosing all list values. -/
lemma interpAt_bounds {s : List ℚ} {p l u : ℚ} (hne : s ≠ [])
    (hl : ∀ x ∈ s, l ≤ x) (hu : ∀ x ∈ s, x ≤ u)
    (hp0 : 0 ≤ p) (hpn : p ≤ (s.length : ℚ) - 1) :
    l ≤ interpAt s p ∧ interpAt s p ≤ u := by
  have hiltn : (⌊p⌋).toNat < s.length := floor_pos_lt_length hne hp0 hpn
  set i : ℕ := (⌊p⌋).toNat with hidef
  have hci : ((i : ℕ) : ℚ) = (⌊p⌋ : ℚ) := cast_toNat_floor hp0
  have hf0 : 0 ≤ p - (i : ℚ) := by
    rw [hci]; have := Int.floor_le p; linarith
  have hf1 : p - (i : ℚ) < 1 := by
    rw [hci]; have := Int.lt_floor_add_one p; linarith
  have hx0mem : s.getD i 0 ∈ s := by
    rw [List.getD_eq_getElem?_getD, List.getElem?_eq_getElem hiltn]
    simp only [Option.getD_some]; exact List.getElem_mem hiltn
  show l ≤ s.getD i 0 + (p - (i : ℚ)) * (s.getD (i+1) (s.getD i 0) - s.getD i 0) ∧
      s.getD i 0 + (p - (i : ℚ)) * (s.getD (i+1) (s.getD i 0) - s.getD i 0) ≤ u
  by_cases hi1 : i + 1 < s.length
  · have hx1mem : s.getD (i+1) (s.getD i 0) ∈ s := by
      rw [List.getD_eq_getElem?_getD, List.getElem?_eq_getElem hi1]
      simp only [Option.getD_some]; exact List.getElem_mem hi1
    constructor
    · nlinarith [hl _ hx0mem, hl _ hx1mem]
    · nlinarith [hu _ hx0mem, hu _ hx1mem]
  · have hx1 : s.getD (i+1) (s.getD i 0) = s.getD i 0 := by
      rw [List.getD_eq_getElem?_getD, List.getElem?_eq_none (by omega)]
      rfl
    rw [hx1]
    constructor
    · nlinarith [hl _ hx0mem]
    · nlinarith [hu _ hx0mem]

/-- On a sorted list, the interpolated value is monotone in the position. -/
lemma interpAt_mono {s : List ℚ} {p p' : ℚ}
    (hs : List.Sorted (· ≤ ·) s) (hne : s ≠ [])
    (hp0 : 0 ≤ p) (hpp : p ≤ p') (hpn : p' ≤ (s.length : ℚ) - 1) :
    interpAt s p ≤ interpAt s p' := by
  have hp'0 : 0 ≤ p' := hp0.trans hpp
  have hin : (⌊p⌋).toNat < s.length :=
    floor_pos_lt_length hne hp0 (hpp.trans hpn)
  have hin' : (⌊p'⌋).toNat < s.length := floor_pos_lt_length hne hp'0 hpn
  set i : ℕ := (⌊p⌋).toNat with hidef
  set i' : ℕ := (⌊p'⌋).toNat with hidef'
  have hii : i ≤ i' := by
    have := Int.floor_le_floor (α := ℚ) hpp
    have h0 : 0 ≤ ⌊p⌋ := Int.floor_nonneg.mpr hp0
    omega
  have hci : ((i : ℕ) : ℚ) = (⌊p⌋ : ℚ) := cast_toNat_floor hp0
  have hci' : ((i' : ℕ) : ℚ) = (⌊p'⌋ : ℚ) := cast_toNat_floor hp'0
  have hf0 : 0 ≤ p - (i : ℚ) := by rw [hci]; have := Int.floor_le p; linarith
  have hf1 : p - (i : ℚ) < 1 := by rw [hci]; have := Int.lt_floor_add_one p; linarith
  have hf'0 : 0 ≤ p' - (i' : ℚ) := by rw [hci']; have := Int.floor_le p'; linarith
  have hf'1 : p' - (i' : ℚ) < 1 := by rw [hci']; have := Int.lt_floor_add_one p'; linarith
  show s.getD i 0 + (p - (i : ℚ)) * (s.getD (i+1) (s.getD i 0) - s.getD i 0) ≤
      s.getD i' 0 + (p' - (i' : ℚ)) * (s.getD (i'+1) (s.getD i' 0) - s.getD i' 0)
  have hx1' : s.getD i' 0 ≤ s.getD (i'+1) (s.getD i' 0) := by
    by_cases h : i' + 1 < s.length
    · rw [getD_irrel h _ 0]
      exact sorted_getD_mono hs (Nat.le_succ i') h
    · rw [List.getD_eq_getElem?_getD (n := i' + 1), List.getElem?_eq_none (by omega)]
      simp
  rcases Nat.eq_or_lt_of_le hii with heq | hlt
  · rw [heq]
    rw [heq] at hf0 hf1
    nlinarith [mul_nonneg (by linarith : (0:ℚ) ≤ p' - p)
      (by linarith [hx1'] : (0:ℚ) ≤ s.getD (i'+1) (s.getD i' 0) - s.getD i' 0)]
  · have hx1eq : s.getD (i+1) (s.getD i 0) = s.getD (i+1) 0 := getD_irrel (by omega) _ 0
    have hx1 : s.getD i 0 ≤ s.getD (i+1) (s.getD i 0) := by
      rw [hx1eq]; exact sorted_getD_mono hs (Nat.le_succ i) (by omega)
    have hchain : s.getD (i+1) (s.getD i 0) ≤ s.getD i' 0 := by
      rw [hx1eq]; exact sorted_getD_mono hs (by omega) hin'
    have hleft : s.getD i 0 + (p - (i : ℚ)) * (s.getD (i+1) (s.getD i 0) - s.getD i 0) ≤
        s.getD (i+1) (s.getD i 0) := by
      nlinarith [mul_nonneg (by linarith : (0:ℚ) ≤ 1 - (p - (i : ℚ)))
        (by linarith : (0:ℚ) ≤ s.getD (i+1) (s.getD i 0) - s.getD i 0)]
    have hright : s.getD i' 0 ≤
        s.getD i' 0 + (p' - (i' : ℚ)) * (s.getD (i'+1) (s.getD i' 0) - s.getD i' 0) := by
      nlinarith [mul_nonneg hf'0
        (by linarith [hx1'] : (0:ℚ) ≤ s.getD (i'+1) (s.getD i' 0) - s.getD i' 0)]
    linarith

/-- A quantile is NaN exactly when the column has no present value. -/
lemma quantile_eq_none_iff (s : List Cell) (q : ℚ) :
    quantile s q = none ↔ dropNA s = [] := by
  by_cases h : dropNA s = [] <;> simp [quantile, h]

/-- Extraction of the interpolation form from a computed quantile. -/
lemma quantile_eq_some {s : List Cell} {q m : ℚ} (h : quantile s q = some m) :
    dropNA s ≠ [] ∧
      m = interpAt (List.insertionSort (· ≤ ·) (dropNA s))
            (q * (((dropNA s).length : ℚ) - 1)) := by
  by_cases hd : dropNA s = []
  · simp [quantile, hd] at h
  · simp only [quantile, if_neg hd] at h
    exact ⟨hd, (Option.some_inj.mp h).symm⟩

/-- Quantiles are monotone in the requested level q. -/
lemma quantile_mono {s : List Cell} {q q' a b : ℚ}
    (h0 : 0 ≤ q) (hqq : q ≤ q') (h1 : q' ≤ 1)
    (ha : quantile s q = some a) (hb : quantile s q' = some b) : a ≤ b := by
  obtain ⟨hd, hae⟩ := quantile_eq_some ha
  obtain ⟨-, hbe⟩ := quantile_eq_some hb
  set xs := dropNA s with hxs
  set srt := List.insertionSort (· ≤ ·) xs with hsrt
  have hperm : srt.Perm xs := List.perm_insertionSort _ _
  have hlen : srt.length = xs.length := hperm.length_eq
  have hnil : srt ≠ [] := by
    intro hc
    apply hd
    rw [hc] at hlen
    exact (List.length_eq_zero.mp hlen.symm)
  have hn1 : (0:ℚ) ≤ (xs.length : ℚ) - 1 := by
    have := List.length_pos.mpr hd
    have h2 : (1:ℚ) ≤ (xs.length : ℚ) := by exact_mod_cast this
    linarith
  rw [hae, hbe]
  apply interpAt_mono (List.sorted_insertionSort _ _) hnil
  · exact mul_nonneg h0 hn1
  · exact mul_le_mul_of_nonneg_right hqq hn1
  · rw [hlen]
    calc q' * ((xs.length : ℚ) - 1) ≤ 1 * ((xs.length : ℚ) - 1) :=
          mul_le_mul_of_nonneg_right h1 hn1
      _ = (xs.length : ℚ) - 1 := one_mul _

/-- A quantile lies between any bounds enclosing all present values. -/
lemma quantile_bounds {s : List Cell} {q l u m : ℚ}
    (h0 : 0 ≤ q) (h1 : q ≤ 1)
    (hl : ∀ x ∈ dropNA s, l ≤ x) (hu : ∀ x ∈ dropNA s, x ≤ u)
    (hm : quantile s q = some m) : l ≤ m ∧ m ≤ u := by
  obtain ⟨hd, hme⟩ := quantile_eq_some hm
  set xs := dropNA s with hxs
  set srt := List.insertionSort (· ≤ ·) xs with hsrt
  have hperm : srt.Perm xs := List.perm_insertionSort _ _
  have hlen : srt.length = xs.length := hperm.length_eq
  have hnil : srt ≠ [] := by
    intro hc
    apply hd
    rw [hc] at hlen
    exact (List.length_eq_zero.mp hlen.symm)
  have hn1 : (0:ℚ) ≤ (xs.length : ℚ) - 1 := by
    have := List.length_pos.mpr hd
    have h2 : (1:ℚ) ≤ (xs.length : ℚ) := by exact_mod_cast this
    linarith
  rw [hme]
  apply interpAt_bounds hnil
  · exact fun x hx => hl x (hperm.mem_iff.mp hx)
  · exact fun x hx => hu x (hperm.mem_iff.mp hx)
  · exact mul_nonneg h0 hn1
  · rw [hlen]
    calc q * ((xs.length : ℚ) - 1) ≤ 1 * ((xs.length : ℚ) - 1) :=
          mul_le_mul_of_nonneg_right h1 hn1
      _ = (xs.length : ℚ) - 1 := one_mul _

/-- Lower-bound half of interpAt_bounds, usable without an upper bound. -/
lemma interpAt_lb {s : List ℚ} {p l : ℚ} (hne : s ≠ [])
    (hl : ∀ x ∈ s, l ≤ x)
    (hp0 : 0 ≤ p) (hpn : p ≤ (s.length : ℚ) - 1) : l ≤ interpAt s p := by
  have hiltn : (⌊p⌋).toNat < s.length := floor_pos_lt_length hne hp0 hpn
  set i : ℕ := (⌊p⌋).toNat with hidef
  have hci : ((i : ℕ) : ℚ) = (⌊p⌋ : ℚ) := cast_toNat_floor hp0
  have hf0 : 0 ≤ p - (i : ℚ) := by
    rw [hci]; have := Int.floor_le p; linarith
  have hf1 : p - (i : ℚ) < 1 := by
    rw [hci]; have := Int.lt_floor_add_one p; linarith
  have hx0mem : s.getD i 0 ∈ s := by
    rw [List.getD_eq_getElem?_getD, List.getElem?_eq_getElem hiltn]
    simp only [Option.getD_some]; exact List.getElem_mem hiltn
  show l ≤ s.getD i 0 + (p - (i : ℚ)) * (s.getD (i+1) (s.getD i 0) - s.getD i 0)
  by_cases hi1 : i + 1 < s.length
  · have hx1mem : s.getD (i+1) (s.getD i 0) ∈ s := by
      rw [List.getD_eq_getElem?_getD, List.getElem?_eq_getElem hi1]
      simp only [Option.getD_some]; exact List.getElem_mem hi1
    nlinarith [hl _ hx0mem, hl _ hx1mem]
  · have hx1 : s.getD (i+1) (s.getD i 0) = s.getD i 0 := by
      rw [List.getD_eq_getElem?_getD, List.getElem?_eq_none (by omega)]
      rfl
    rw [hx1]
    nlinarith [hl _ hx0mem]

/-- A quantile is at least any lower bound of the present values. -/
lemma quantile_lb {s : List Cell} {q l m : ℚ}
    (h0 : 0 ≤ q) (h1 : q ≤ 1)
    (hl : ∀ x ∈ dropNA s, l ≤ x)
    (hm : quantile s q = some m) : l ≤ m := by
  obtain ⟨hd, hme⟩ := quantile_eq_some hm
  set xs := dropNA s with hxs
  set srt := List.insertionSort (· ≤ ·) xs with hsrt
  have hperm : srt.Perm xs := List.perm_insertionSort _ _
  have hlen : srt.length = xs.length := hperm.length_eq
  have hnil : srt ≠ [] := by
    intro hc
    apply hd
    rw [hc] at hlen
    exact (List.length_eq_zero.mp hlen.symm)
  have hn1 : (0:ℚ) ≤ (xs.length : ℚ) - 1 := by
    have := List.length_pos.mpr hd
    have h2 : (1:ℚ) ≤ (xs.length : ℚ) := by exact_mod_cast this
    linarith
  rw [hme]
  apply interpAt_lb hnil
  · exact fun x hx => hl x (hperm.mem_iff.mp hx)
  · exact mul_nonneg h0 hn1
  · rw [hlen]
    calc q * ((xs.length : ℚ) - 1) ≤ 1 * ((xs.length : ℚ) - 1) :=
          mul_le_mul_of_nonneg_right h1 hn1
      _ = (xs.length : ℚ) - 1 := one_mul _

/-- On a column whose present values are all equal to v, every quantile is v. -/
lemma quantile_const {s : List Cell} {v q : ℚ}
    (h0 : 0 ≤ q) (h1 : q ≤ 1) (hd : dropNA s ≠ [])
    (hv : ∀ x ∈ dropNA s, x = v) : quantile s q = some v := by
  have hm : quantile s q = some (interpAt (List.insertionSort (· ≤ ·) (dropNA s))
      (q * (((dropNA s).length : ℚ) - 1))) := by
    simp [quantile, hd]
  have hb := quantile_bounds h0 h1 (fun x hx => (hv x hx).ge) (fun x hx => (hv x hx).le) hm
  rw [hm]
  exact congrArg some (le_antisymm hb.2 hb.1)

/-! ### Lemmas about clipping and iqr_winsorize -/

/-- With ordered bounds, numpy clip agrees with max lower (min upper v). -/
lemma clipVal_eq_max_min {l u : ℚ} (h : l ≤ u) (v : ℚ) :
    clipVal l u v = max l (min u v) := by
  rcases le_total v l with hv | hv <;> rcases le_total v u with h2 | h2 <;>
    simp [clipVal, min_def, max_def] <;> split_ifs <;> linarith

/-- Clipping twice with the same bounds is the same as clipping once. -/
lemma clipVal_idem (l u v : ℚ) : clipVal l u (clipVal l u v) = clipVal l u v := by
  rcases le_total v l with hv | hv <;> rcases le_total v u with h2 | h2 <;>
    rcases le_total l u with h3 | h3 <;>
    simp [clipVal, min_def, max_def] <;> split_ifs <;> linarith

/-- A value already inside the bounds is not moved by clipping. -/
lemma clipVal_of_mem {l u v : ℚ} (hl : l ≤ v) (hu : v ≤ u) : clipVal l u v = v := by
  rw [clipVal, max_eq_right hl, min_eq_right hu]

/-- With both quartiles present, iqr_winsorize is a pointwise clip. -/
lemma iqr_winsorize_eq_map {s : List Cell} {k q1 q3 : ℚ}
    (h1 : quantile s (1/4) = some q1) (h3 : quantile s (3/4) = some q3) :
    iqr_winsorize s k =
      s.map (Option.map (clipVal (q1 - k * (q3 - q1)) (q3 + k * (q3 - q1)))) := by
  rw [iqr_winsorize, h1, h3]

/-- A column with no present value is returned unchanged by iqr_winsorize. -/
lemma iqr_winsorize_of_allNA {s : List Cell} (h : dropNA s = []) (k : ℚ) :
    iqr_winsorize s k = s := by
  have h1 : quantile s (1/4) = none := (quantile_eq_none_iff s _).mpr h
  rw [iqr_winsorize, h1]

/-- The first quartile never exceeds the third. -/
lemma q1_le_q3 {s : List Cell} {q1 q3 : ℚ}
    (h1 : quantile s (1/4) = some q1) (h3 : quantile s (3/4) = some q3) : q1 ≤ q3 :=
  quantile_mono (by norm_num) (by norm_num) (by norm_num) h1 h3

/-- dropNA of a pointwise-mapped column is the mapped dropNA. -/
lemma dropNA_map (f : ℚ → ℚ) (s : List Cell) :
    dropNA (s.map (Option.map f)) = (dropNA s).map f := by
  induction s with
  | nil => rfl
  | cons o t ih => cases o <;> simp [dropNA, List.filterMap_cons] at ih ⊢ <;> exact ih

/-! ### Lemmas about the dataframe stages -/

/-- Lookup after a map that keeps keys and rewrites values. -/
lemma lookup_map_vals (l : List (String × List Cell)) (g : String → List Cell → List Cell)
    (n : String) :
    (l.map (fun p => (p.1, g p.1 p.2))).lookup n = (l.lookup n).map (g n) := by
  induction l with
  | nil => rfl
  | cons p t ih =>
      obtain ⟨k, v⟩ := p
      by_cases h : n = k
      · subst h
        simp [List.lookup_cons]
      · rw [List.map_cons, List.lookup_cons, List.lookup_cons]
        rw [show (n == k) = false from beq_eq_false_iff_ne.mpr h]
        exact ih

/-- Lookup after a column assignment. -/
lemma lookup_setCol (df : DataFrame) (m : String) (f : List Cell → List Cell) (n : String) :
    (setCol df m f).cols.lookup n =
      (df.cols.lookup n).map (fun c => if n = m then f c else c) := by
  have hfun : (fun p : String × List Cell => if p.1 = m then (p.1, f p.2) else p)
      = (fun p : String × List Cell => (p.1, if p.1 = m then f p.2 else p.2)) := by
    funext p
    by_cases h : p.1 = m <;> simp [h]
  show ((df.cols.map (fun p => if p.1 = m then (p.1, f p.2) else p)).lookup n) = _
  rw [hfun]
  exact lookup_map_vals df.cols (fun k v => if k = m then f v else v) n

/-- Lookup after folding column assignments over a list of distinct names. -/
lemma lookup_foldl_setCol (names : List String) (f : List Cell → List Cell)
    (df : DataFrame) (n : String) (hnd : names.Nodup) :
    ((names.foldl (fun d c => setCol d c f) df).cols).lookup n =
      (df.cols.lookup n).map (fun c => if n ∈ names then f c else c) := by
  induction names generalizing df with
  | nil => simp
  | cons m t ih =>
      have hm : m ∉ t := (List.nodup_cons.mp hnd).1
      have hnd' : t.Nodup := (List.nodup_cons.mp hnd).2
      rw [List.foldl_cons, ih (setCol df m f) hnd', lookup_setCol, Option.map_map]
      by_cases h : n = m
      · subst h
        have hnt : n ∉ t := hm
        simp [Function.comp_def, hnt, List.mem_cons]
      · simp [Function.comp_def, h, List.mem_cons]

/-- Lookup after stage 1: every column is restricted to the surviving rows. -/
lemma lookup_stage1 (df : DataFrame) (n : String) :
    (stage1 df).cols.lookup n =
      (df.cols.lookup n).map (survivors (df.cols.lookup "loyer_mensuel")) := by
  rw [stage1]
  cases h : df.cols.lookup "loyer_mensuel" with
  | none =>
      have hs : survivors (none : Option (List Cell)) = fun c => c := rfl
      simp [h, hs]
  | some lc =>
      simp only [h]
      exact lookup_map_vals df.cols (fun _ c => maskFilter (lc.map keepRow) c) n

/-- Lookup after stage 2: outlier columns are winsorised, others untouched. -/
lemma lookup_stage2 (df : DataFrame) (n : String) :
    (stage2 df).cols.lookup n =
      (df.cols.lookup n).map
        (fun c => if n ∈ cols_with_outliers then iqr_winsorize c (3/2) else c) :=
  lookup_foldl_setCol cols_with_outliers _ df n (by decide)

/-- Lookup after stage 3: impute columns are imputed, others untouched. -/
lemma lookup_stage3 (df : DataFrame) (n : String) :
    (stage3 df).cols.lookup n =
      (df.cols.lookup n).map (fun c => if n ∈ cols_to_impute then imputeCol c else c) :=
  lookup_foldl_setCol cols_to_impute _ df n (by decide)

/-- Columnwise decomposition of the whole pipeline: the output of any named
    column is a function of that raw column and the raw loyer_mensuel column. -/
lemma lookup_clean_dataset (df : DataFrame) (n : String) :
    (clean_dataset df).cols.lookup n =
      (df.cols.lookup n).map (cleanCol (df.cols.lookup "loyer_mensuel") n) := by
  rw [clean_dataset, lookup_stage3, lookup_stage2, lookup_stage1,
    Option.map_map, Option.map_map]
  rfl

/-! ### Lemmas about row filtering, lengths and counts -/

/-- One step of boolean row indexing. -/
lemma maskFilter_cons (b : Bool) (mask : List Bool) (x : α) (xs : List α) :
    maskFilter (b :: mask) (x :: xs) =
      if b then x :: maskFilter mask xs else maskFilter mask xs := by
  by_cases h : b <;> simp [maskFilter, List.filter_cons, h]

/-- Row indexing a list by the mask computed from itself is a filter. -/
lemma maskFilter_map_self (f : α → Bool) (l : List α) :
    maskFilter (l.map f) l = l.filter f := by
  induction l with
  | nil => rfl
  | cons x t ih =>
      rw [List.map_cons, maskFilter_cons, List.filter_cons, ih]

/-- Length of a masked list: the number of true bits of the mask. -/
lemma maskFilter_length (mask : List Bool) (xs : List α) (h : xs.length = mask.length) :
    (maskFilter mask xs).length = mask.countP id := by
  induction mask generalizing xs with
  | nil =>
      rw [List.length_eq_zero.mp h]
      rfl
  | cons b t ih =>
      cases xs with
      | nil => simp at h
      | cons x xs' =>
          rw [maskFilter_cons, List.countP_cons]
          have h' : xs'.length = t.length := by simpa using h
          by_cases hb : b <;> simp [hb, ih xs' h']

/-- Winsorisation preserves the length of a column. -/
lemma iqr_winsorize_length (s : List Cell) (k : ℚ) :
    (iqr_winsorize s k).length = s.length := by
  rw [iqr_winsorize]
  cases h1 : quantile s (1/4) <;> cases h3 : quantile s (3/4) <;> simp

/-- Filling missing values preserves the length of a column. -/
lemma fillna_length (s : List Cell) (m : Option ℚ) : (fillna s m).length = s.length := by
  cases m <;> simp [fillna]

/-- Imputation preserves the length of a column. -/
lemma imputeCol_length (s : List Cell) : (imputeCol s).length = s.length := by
  rw [imputeCol]
  split
  · exact fillna_length s _
  · rfl

/-- The stage-1 keep bit is the negation of the bad-rent bit. -/
lemma keepRow_eq_not_isBadRent (o : Cell) : keepRow o = !(isBadRent o) := by
  cases o with
  | none => rfl
  | some v =>
      simp only [keepRow, isBadRent]
      by_cases h : 0 ≤ v
      · simp [h, not_lt.mpr h]
      · simp [h, lt_of_not_ge h]

/-- Count of kept rows: length minus the bad-rent count. -/
lemma countP_keepRow (lc : List Cell) :
    lc.countP keepRow = lc.length - lc.countP isBadRent := by
  have h : lc.countP keepRow + lc.countP isBadRent = lc.length := by
    induction lc with
    | nil => rfl
    | cons o t ih =>
        rw [List.countP_cons, List.countP_cons, keepRow_eq_not_isBadRent]
        cases hb : isBadRent o <;> simp [hb] <;> omega
  omega

/-- A present quantile exists exactly when some value is present. -/
lemma quantile_exists_of_dropNA_ne {s : List Cell} (hd : dropNA s ≠ []) (q : ℚ) :
    ∃ m, quantile s q = some m := by
  cases hq : quantile s q with
  | none => exact absurd ((quantile_eq_none_iff _ _).mp hq) hd
  | some m => exact ⟨m, rfl⟩

/-- When some value is present, stage-3 imputation is the pointwise fill with
    the median. -/
lemma imputeCol_of_present {c : List Cell} (hpres : dropNA c ≠ []) :
    ∃ m, quantile c (1/2) = some m ∧
      imputeCol c = c.map (fun o => some (o.getD m)) := by
  obtain ⟨m, hm⟩ := quantile_exists_of_dropNA_ne hpres (1/2)
  refine ⟨m, hm, ?_⟩
  rw [imputeCol]
  by_cases h : 0 < c.countP (fun o => o.isNone)
  · rw [if_pos h, hm]
    rfl
  · rw [if_neg h]
    have h' : c.countP (fun o => o.isNone) = 0 := by omega
    have h0 : ∀ o ∈ c, ¬ (Option.isNone o = true) := List.countP_eq_zero.mp h'
    conv_lhs => rw [← List.map_id c]
    apply List.map_congr_left
    intro o ho
    cases o with
    | none => exact absurd rfl (h0 none ho)
    | some v => rfl

/-- A filled column has no missing entry. -/
lemma countNone_fill (c : List Cell) (m : ℚ) :
    (c.map (fun o => some (o.getD m))).countP (fun o => o.isNone) = 0 := by
  rw [List.countP_map]
  apply List.countP_eq_zero.mpr
  intro a _
  simp [Function.comp]

/-- A column that is entirely missing is unchanged by stage-3 imputation. -/
lemma imputeCol_of_allNA {c : List Cell} (hall : dropNA c = []) : imputeCol c = c := by
  rw [imputeCol, (quantile_eq_none_iff c (1/2)).mpr hall]
  split <;> rfl

/-- A successful association-list lookup produces a member of the list. -/
lemma mem_of_lookup {l : List (String × List Cell)} {a : String} {b : List Cell}
    (h : l.lookup a = some b) : (a, b) ∈ l := by
  induction l with
  | nil => simp at h
  | cons p t ih =>
      obtain ⟨k, v⟩ := p
      rw [List.lookup_cons] at h
      revert h
      cases hbeq : (a == k) <;> intro h
      · exact List.mem_cons_of_mem _ (ih h)
      · have hk : a = k := eq_of_beq hbeq
        have hv : v = b := Option.some_inj.mp h
        subst hk
        subst hv
        exact List.mem_cons_self _ _

/-- Column assignment preserves a uniform column length. -/
lemma length_setCol {df : DataFrame} {L : ℕ} {f : List Cell → List Cell}
    (hf : ∀ c, (f c).length = c.length) (m : String)
    (h : ∀ p ∈ df.cols, p.2.length = L) :
    ∀ p ∈ (setCol df m f).cols, p.2.length = L := by
  intro p hp
  obtain ⟨q, hq, hpq⟩ := List.mem_map.mp hp
  by_cases hqm : q.1 = m
  · rw [if_pos hqm] at hpq
    rw [← hpq]
    rw [show ((q.1, f q.2) : String × List Cell).2 = f q.2 from rfl, hf]
    exact h q hq
  · rw [if_neg hqm] at hpq
    rw [← hpq]
    exact h q hq

/-- Folded column assignments preserve a uniform column length. -/
lemma length_foldl_setCol (names : List String) {f : List Cell → List Cell}
    (hf : ∀ c, (f c).length = c.length) {df : DataFrame} {L : ℕ}
    (h : ∀ p ∈ df.cols, p.2.length = L) :
    ∀ p ∈ ((names.foldl (fun d c => setCol d c f) df).cols), p.2.length = L := by
  induction names generalizing df with
  | nil => exact h
  | cons m t ih =>
      rw [List.foldl_cons]
      exact ih (length_setCol hf m h)

/-! ### Claim C1: bounding correctness of the Outlier Bounder -/

/-- C1: for every numeric column whose quartiles are defined and every
    non-negative multiplier k, the Outlier Bounder returns a column of the same
    length in which every non-missing value v is replaced by
    max (lower) (min (upper) v), where lower = Q1 - k*IQR and
    upper = Q3 + k*IQR with Q1 and Q3 the 25th and 75th linear-interpolation
    percentiles of the present values; missing entries pass through unchanged
    (the map sends none to none). -/
theorem winsorize_bounding (s : List Cell) (k q1 q3 : ℚ) (hk : 0 ≤ k)
    (h1 : quantile s (1/4) = some q1) (h3 : quantile s (3/4) = some q3) :
    (iqr_winsorize s k).length = s.length ∧
    iqr_winsorize s k =
      s.map (Option.map (fun v =>
        max (q1 - k * (q3 - q1)) (min (q3 + k * (q3 - q1)) v))) := by
  have h13 : q1 ≤ q3 := q1_le_q3 h1 h3
  have hlu : q1 - k * (q3 - q1) ≤ q3 + k * (q3 - q1) := by nlinarith
  refine ⟨iqr_winsorize_length s k, ?_⟩
  rw [iqr_winsorize_eq_map h1 h3]
  apply List.map_congr_left
  intro o _
  cases o with
  | none => rfl
  | some v => simp [clipVal_eq_max_min hlu]

/-- C1 witness: the column 1, 2, 3, 4, 100 with k = 1.5 has Q1 = 2, Q3 = 4,
    lower = -1, upper = 7, and winsorises to 1, 2, 3, 4, 7. -/
theorem winsorize_bounding_witness :
    ((iqr_winsorize [some 1, some 2, some 3, some 4, some 100] (3/2)).length =
        ([some 1, some 2, some 3, some 4, some 100] : List Cell).length ∧
      iqr_winsorize [some 1, some 2, some 3, some 4, some 100] (3/2) =
        ([some 1, some 2, some 3, some 4, some 100] : List Cell).map (Option.map (fun v =>
          max (2 - (3/2) * (4 - 2)) (min (4 + (3/2) * (4 - 2)) v)))) ∧
    iqr_winsorize [some 1, some 2, some 3, some 4, some 100] (3/2) =
      [some 1, some 2, some 3, some 4, some 7] := by
  have h1 : quantile [some 1, some 2, some 3, some 4, some 100] (1/4) = some 2 := by
    norm_num [quantile, dropNA, interpAt, List.insertionSort, List.orderedInsert,
      List.filterMap_cons, List.getD, List.cons_ne_nil, Int.toNat_ofNat]
  have h3 : quantile [some 1, some 2, some 3, some 4, some 100] (3/4) = some 4 := by
    norm_num [quantile, dropNA, interpAt, List.insertionSort, List.orderedInsert,
      List.filterMap_cons, List.getD, List.cons_ne_nil, Int.toNat_ofNat]
    simp
  refine ⟨winsorize_bounding _ (3/2) 2 4 (by norm_num) h1 h3, ?_⟩
  rw [iqr_winsorize_eq_map h1 h3]
  norm_num [clipVal, min_def, max_def]

/-! ### Claim C6: winsorisation preserves the missingness pattern -/

/-- C6: for every numeric column and every non-negative multiplier k, the
    Outlier Bounder's output has exactly the count of non-missing entries of
    its input, each entry is missing in the output iff it is missing in the
    input, and a non-missing value already inside the bounds is unchanged
    (only out-of-bound magnitudes change). -/
theorem winsorize_missingness (s : List Cell) (k : ℚ) (hk : 0 ≤ k) :
    (iqr_winsorize s k).length = s.length ∧
    ((iqr_winsorize s k).countP (fun o => o.isSome)) = s.countP (fun o => o.isSome) ∧
    (∀ i : ℕ, ((iqr_winsorize s k).getD i none = none ↔ s.getD i none = none)) ∧
    (∀ q1 q3 : ℚ, quantile s (1/4) = some q1 → quantile s (3/4) = some q3 →
      ∀ i : ℕ, ∀ v : ℚ, s.getD i none = some v →
        q1 - k * (q3 - q1) ≤ v → v ≤ q3 + k * (q3 - q1) →
        (iqr_winsorize s k).getD i none = some v) := by
  refine ⟨iqr_winsorize_length s k, ?_, ?_, ?_⟩
  · rw [iqr_winsorize]
    cases h1 : quantile s (1/4) <;> cases h3 : quantile s (3/4) <;> try rfl
    rw [List.countP_map]
    apply List.countP_congr
    intro o _
    cases o <;> simp [Function.comp]
  · intro i
    rw [iqr_winsorize]
    cases h1 : quantile s (1/4) <;> cases h3 : quantile s (3/4) <;> try rfl
    rw [List.getD_eq_getElem?_getD, List.getD_eq_getElem?_getD, List.getElem?_map]
    cases h : s[i]? with
    | none => simp
    | some o => cases o <;> simp
  · intro q1 q3 h1 h3 i v hv hlo hhi
    rw [iqr_winsorize_eq_map h1 h3]
    rw [List.getD_eq_getElem?_getD, List.getElem?_map]
    rw [List.getD_eq_getElem?_getD] at hv
    cases h : s[i]? with
    | none => rw [h] at hv; exact absurd hv (by simp)
    | some o =>
        rw [h] at hv
        simp only [Option.getD_some] at hv
        subst hv
        simp [clipVal_of_mem hlo hhi]

/-- C6 witness: on the column 1, missing, 2 with k = 1.5 the missing entry
    stays missing and the in-bound value 1 is unchanged. -/
theorem winsorize_missingness_witness :
    (iqr_winsorize [some 1, none, some 2] (3/2)).getD 1 none = none ∧
    (iqr_winsorize [some 1, none, some 2] (3/2)).getD 0 none = some 1 := by
  have h1 : quantile [some 1, none, some 2] (1/4) = some (5/4) := by
    norm_num [quantile, dropNA, interpAt, List.insertionSort, List.orderedInsert,
      List.filterMap_cons, List.getD, List.cons_ne_nil, Int.toNat_ofNat]
  have h3 : quantile [some 1, none, some 2] (3/4) = some (7/4) := by
    norm_num [quantile, dropNA, interpAt, List.insertionSort, List.orderedInsert,
      List.filterMap_cons, List.getD, List.cons_ne_nil, Int.toNat_ofNat]
  constructor
  · exact ((winsorize_missingness [some 1, none, some 2] (3/2)
      (by norm_num)).2.2.1 1).mpr rfl
  · exact (winsorize_missingness [some 1, none, some 2] (3/2)
      (by norm_num)).2.2.2 (5/4) (7/4) h1 h3 0 1 rfl (by norm_num) (by norm_num)

/-! ### Claim C7: a single present value collapses the column to that value -/

/-- C7: for every column whose present values all equal v (at least one
    present) and every non-negative k, Q1 = Q3 = v, so lower = upper = v and
    the Outlier Bounder replaces every non-missing entry by v. -/
theorem winsorize_single_value (s : List Cell) (k v : ℚ) (hk : 0 ≤ k)
    (hd : dropNA s ≠ []) (hv : ∀ x ∈ dropNA s, x = v) :
    quantile s (1/4) = some v ∧ quantile s (3/4) = some v ∧
    iqr_winsorize s k = s.map (Option.map (fun _ => v)) := by
  have h1 : quantile s (1/4) = some v := quantile_const (by norm_num) (by norm_num) hd hv
  have h3 : quantile s (3/4) = some v := quantile_const (by norm_num) (by norm_num) hd hv
  refine ⟨h1, h3, ?_⟩
  rw [iqr_winsorize_eq_map h1 h3]
  apply List.map_congr_left
  intro o ho
  cases o with
  | none => rfl
  | some x =>
      have hx : x = v := hv x (List.mem_filterMap.mpr ⟨some x, ho, rfl⟩)
      subst hx
      simp [clipVal]

/-- C7 witness: the column missing, 5, missing winsorises to itself, every
    present entry clipped to the single value 5. -/
theorem winsorize_single_value_witness :
    quantile [none, some 5, none] (1/4) = some 5 ∧
    quantile [none, some 5, none] (3/4) = some 5 ∧
    iqr_winsorize [none, some 5, none] (3/2) =
      ([none, some 5, none] : List Cell).map (Option.map (fun _ => 5)) :=
  winsorize_single_value [none, some 5, none] (3/2) 5 (by norm_num)
    (by simp [dropNA, List.filterMap_cons])
    (by intro x hx; simpa [dropNA, List.filterMap_cons] using hx)

/-! ### Claim C2: winsorisation is not idempotent in general -/

/-- C2 counterexample: on the column 0, 100, 100, 100 with k = 1.5 a first
    application clips 0 to 37.5, which moves the first quartile, so a second
    application clips 37.5 further to 60.9375: applying the Outlier Bounder
    twice differs from applying it once. -/
theorem winsorize_not_idempotent :
    iqr_winsorize (iqr_winsorize [some 0, some 100, some 100, some 100] (3/2)) (3/2) ≠
      iqr_winsorize [some 0, some 100, some 100, some 100] (3/2) := by
  have e1 : iqr_winsorize [some 0, some 100, some 100, some 100] (3/2) =
      [some (75/2), some 100, some 100, some 100] := by
    have h1 : quantile [some 0, some 100, some 100, some 100] (1/4) = some 75 := by
      norm_num [quantile, dropNA, interpAt, List.insertionSort, List.orderedInsert,
        List.filterMap_cons, List.getD, List.cons_ne_nil, Int.toNat_ofNat]
    have h3 : quantile [some 0, some 100, some 100, some 100] (3/4) = some 100 := by
      norm_num [quantile, dropNA, interpAt, List.insertionSort, List.orderedInsert,
        List.filterMap_cons, List.getD, List.cons_ne_nil, Int.toNat_ofNat]
      simp
    rw [iqr_winsorize_eq_map h1 h3]
    norm_num [clipVal, min_def, max_def]
  have e2 : iqr_winsorize [some (75/2), some 100, some 100, some 100] (3/2) =
      [some (975/16), some 100, some 100, some 100] := by
    have h1 : quantile [some (75/2), some 100, some 100, some 100] (1/4) = some (675/8) := by
      norm_num [quantile, dropNA, interpAt, List.insertionSort, List.orderedInsert,
        List.filterMap_cons, List.getD, List.cons_ne_nil, Int.toNat_ofNat]
    have h3 : quantile [some (75/2), some 100, some 100, some 100] (3/4) = some 100 := by
      norm_num [quantile, dropNA, interpAt, List.insertionSort, List.orderedInsert,
        List.filterMap_cons, List.getD, List.cons_ne_nil, Int.toNat_ofNat]
      simp
    rw [iqr_winsorize_eq_map h1 h3]
    norm_num [clipVal, min_def, max_def]
  rw [e1, e2]
  norm_num

/-- C2 amended: applying the Outlier Bounder twice with the same k yields the
    same result as applying it once for every column and every k such that the
    first application preserves the column's Q1 and Q3 (in particular whenever
    it changes no value); unconditional idempotence fails, see the
    counterexample. -/
theorem winsorize_idempotent_of_quartiles_fixed (s : List Cell) (k : ℚ)
    (h1 : quantile (iqr_winsorize s k) (1/4) = quantile s (1/4))
    (h3 : quantile (iqr_winsorize s k) (3/4) = quantile s (3/4)) :
    iqr_winsorize (iqr_winsorize s k) k = iqr_winsorize s k := by
  by_cases hd : dropNA s = []
  · rw [iqr_winsorize_of_allNA hd, iqr_winsorize_of_allNA hd]
  · obtain ⟨q1, hq1⟩ := quantile_exists_of_dropNA_ne hd (1/4)
    obtain ⟨q3, hq3⟩ := quantile_exists_of_dropNA_ne hd (3/4)
    rw [iqr_winsorize_eq_map (h1.trans hq1) (h3.trans hq3),
      iqr_winsorize_eq_map hq1 hq3, List.map_map]
    apply List.map_congr_left
    intro o _
    cases o with
    | none => rfl
    | some v => simp [Function.comp, clipVal_idem]

/-- C2 amended witness: on -100, 1, 2, 3, 4 with k = 1.5 the first application
    clips -100 to -2 without moving Q1 = 1 or Q3 = 3, so a second application
    changes nothing. -/
theorem winsorize_idempotent_witness :
    iqr_winsorize (iqr_winsorize [some (-100), some 1, some 2, some 3, some 4] (3/2)) (3/2) =
      iqr_winsorize [some (-100), some 1, some 2, some 3, some 4] (3/2) := by
  have hq1 : quantile [some (-100), some 1, some 2, some 3, some 4] (1/4) = some 1 := by
    norm_num [quantile, dropNA, interpAt, List.insertionSort, List.orderedInsert,
      List.filterMap_cons, List.getD, List.cons_ne_nil, Int.toNat_ofNat]
  have hq3 : quantile [some (-100), some 1, some 2, some 3, some 4] (3/4) = some 3 := by
    norm_num [quantile, dropNA, interpAt, List.insertionSort, List.orderedInsert,
      List.filterMap_cons, List.getD, List.cons_ne_nil, Int.toNat_ofNat]
    simp
  have e1 : iqr_winsorize [some (-100), some 1, some 2, some 3, some 4] (3/2) =
      [some (-2), some 1, some 2, some 3, some 4] := by
    rw [iqr_winsorize_eq_map hq1 hq3]
    norm_num [clipVal, min_def, max_def]
  have hw1 : quantile (iqr_winsorize [some (-100), some 1, some 2, some 3, some 4] (3/2))
      (1/4) = quantile [some (-100), some 1, some 2, some 3, some 4] (1/4) := by
    rw [e1, hq1]
    norm_num [quantile, dropNA, interpAt, List.insertionSort, List.orderedInsert,
      List.filterMap_cons, List.getD, List.cons_ne_nil, Int.toNat_ofNat]
  have hw3 : quantile (iqr_winsorize [some (-100), some 1, some 2, some 3, some 4] (3/2))
      (3/4) = quantile [some (-100), some 1, some 2, some 3, some 4] (3/4) := by
    rw [e1, hq3]
    norm_num [quantile, dropNA, interpAt, List.insertionSort, List.orderedInsert,
      List.filterMap_cons, List.getD, List.cons_ne_nil, Int.toNat_ofNat]
    simp
  exact winsorize_idempotent_of_quartiles_fixed _ (3/2) hw1 hw3

/-- What the pipeline does to the business column itself: filter by its own
    keep mask, no winsorisation, then imputation. -/
lemma cleanCol_loyer (lc : List Cell) :
    cleanCol (some lc) "loyer_mensuel" lc = imputeCol (lc.filter keepRow) := by
  simp [cleanCol, survivors, maskFilter_map_self, cols_with_outliers, cols_to_impute]

/-! ### Claim C3: imputation completeness after stage 3 -/

/-- C3 counterexample: a dataset whose impute column score_credit is present
    but entirely missing keeps its missing entry after cleaning: the missing
    count is 1, not 0. -/
theorem imputation_incomplete_on_all_missing :
    (clean_dataset ⟨[("score_credit", [none])]⟩).cols.lookup "score_credit" =
        some [none] ∧
    (([none] : List Cell).countP (fun o => o.isNone)) ≠ 0 := by
  constructor
  · rfl
  · simp

/-- C3 amended: after stage 3, every column of cols_to_impute present in the
    dataset whose post-stage-2 version has at least one present value has zero
    missing entries, each missing entry replaced by the median of the
    post-stage-2 present values (an entirely missing column stays missing). -/
theorem imputation_complete (df : DataFrame) (name : String) (c : List Cell)
    (hmem : name ∈ cols_to_impute)
    (hc : (stage2 (stage1 df)).cols.lookup name = some c)
    (hpres : dropNA c ≠ []) :
    ∃ m, quantile c (1/2) = some m ∧
      (clean_dataset df).cols.lookup name = some (c.map (fun o => some (o.getD m))) ∧
      (c.map (fun o => some (o.getD m))).countP (fun o => o.isNone) = 0 := by
  obtain ⟨m, hm, him⟩ := imputeCol_of_present hpres
  refine ⟨m, hm, ?_, countNone_fill c m⟩
  show (stage3 (stage2 (stage1 df))).cols.lookup name = _
  rw [lookup_stage3, hc]
  simp only [Option.map_some']
  rw [if_pos hmem, him]

/-- C3 witness: the column 10, 20, missing, 40 is imputed with median 20 to
    10, 20, 20, 40 with no missing entry left. -/
theorem imputation_complete_witness :
    (∃ m, quantile [some 10, some 20, none, some 40] (1/2) = some m ∧
      (clean_dataset ⟨[("score_credit", [some 10, some 20, none, some 40])]⟩).cols.lookup
          "score_credit" =
        some (([some 10, some 20, none, some 40] : List Cell).map
          (fun o => some (o.getD m))) ∧
      (([some 10, some 20, none, some 40] : List Cell).map
          (fun o => some (o.getD m))).countP (fun o => o.isNone) = 0) ∧
    (clean_dataset ⟨[("score_credit", [some 10, some 20, none, some 40])]⟩).cols.lookup
        "score_credit" = some [some 10, some 20, some 20, some 40] := by
  constructor
  · exact imputation_complete _ "score_credit" _ (by simp [cols_to_impute]) rfl
      (by simp [dropNA, List.filterMap_cons])
  · have hq : quantile [some 10, some 20, none, some 40] (1/2) = some 20 := by
      norm_num [quantile, dropNA, interpAt, List.insertionSort, List.orderedInsert,
        List.filterMap_cons, List.getD, List.cons_ne_nil, Int.toNat_ofNat]
    have hc : (stage2 (stage1 (⟨[("score_credit", [some 10, some 20, none, some 40])]⟩ :
        DataFrame))).cols.lookup "score_credit" =
        some [some 10, some 20, none, some 40] := rfl
    show (stage3 (stage2 (stage1 _))).cols.lookup "score_credit" = _
    rw [lookup_stage3, hc]
    simp only [Option.map_some']
    rw [if_pos (by simp [cols_to_impute] : "score_credit" ∈ cols_to_impute)]
    rw [imputeCol, if_pos (by simp : 0 <
      ([some 10, some 20, none, some 40] : List Cell).countP (fun o => o.isNone)), hq]
    rfl

/-! ### Claim C10: an entirely missing impute column stays missing -/

/-- C10: when an impute column is present but has no present value after
    stages 1 and 2, its median is the missing marker, the fill replaces
    nothing, and stage 3 returns the column unchanged. -/
theorem imputation_all_missing (df : DataFrame) (name : String) (c : List Cell)
    (hmem : name ∈ cols_to_impute)
    (hc : (stage2 (stage1 df)).cols.lookup name = some c)
    (hall : ∀ o ∈ c, o = none) :
    quantile c (1/2) = none ∧
    (clean_dataset df).cols.lookup name = some c := by
  have hdn : dropNA c = [] := by
    apply List.filterMap_eq_nil_iff.mpr
    intro a ha
    rw [hall a ha]
    rfl
  refine ⟨(quantile_eq_none_iff _ _).mpr hdn, ?_⟩
  show (stage3 (stage2 (stage1 df))).cols.lookup name = _
  rw [lookup_stage3, hc]
  simp only [Option.map_some']
  rw [if_pos hmem, imputeCol_of_allNA hdn]

/-- C10 witness: a fully missing historique_credits column of length two is
    returned untouched, its median being the missing marker. -/
theorem imputation_all_missing_witness :
    quantile [none, none] (1/2) = none ∧
    (clean_dataset ⟨[("historique_credits", [none, none])]⟩).cols.lookup
      "historique_credits" = some [none, none] :=
  imputation_all_missing _ "historique_credits" _ (by simp [cols_to_impute]) rfl
    (by intro o ho; simpa using ho)

/-! ### Claim C4: business rule enforcement and row-count accounting -/

/-- C4: for every dataset containing loyer_mensuel with uniform column length
    n, every output column has length n minus the number of rows whose rent is
    present and strictly negative (rows with missing rent are retained), and
    every output rent value is missing or nonnegative. -/
theorem business_rule (df : DataFrame) (n : ℕ) (lc : List Cell)
    (hwf : ∀ p ∈ df.cols, p.2.length = n)
    (hl : df.cols.lookup "loyer_mensuel" = some lc) :
    (∀ p ∈ (clean_dataset df).cols, p.2.length = n - lc.countP isBadRent) ∧
    (∀ lc', (clean_dataset df).cols.lookup "loyer_mensuel" = some lc' →
      ∀ o ∈ lc', o = none ∨ ∃ v : ℚ, o = some v ∧ 0 ≤ v) := by
  have hlcn : lc.length = n := hwf _ (mem_of_lookup hl)
  constructor
  · have hst1 : ∀ p ∈ (stage1 df).cols, p.2.length = n - lc.countP isBadRent := by
      intro p hp
      rw [stage1, hl] at hp
      obtain ⟨q, hq, hpq⟩ := List.mem_map.mp hp
      rw [← hpq]
      show (maskFilter (lc.map keepRow) q.2).length = _
      rw [maskFilter_length _ _ (by rw [List.length_map, hlcn]; exact hwf q hq)]
      rw [List.countP_map]
      have hcc : (lc.countP (id ∘ keepRow)) = lc.countP keepRow := by
        apply List.countP_congr
        intro o _
        simp
      rw [hcc, countP_keepRow, hlcn]
    show ∀ p ∈ (stage3 (stage2 (stage1 df))).cols, _
    simp only [stage3, stage2]
    apply length_foldl_setCol _ imputeCol_length
    apply length_foldl_setCol _ (fun c => iqr_winsorize_length c (3/2))
    exact hst1
  · intro lc' hlc' o ho
    have hdec := lookup_clean_dataset df "loyer_mensuel"
    rw [hl] at hdec
    rw [hdec] at hlc'
    have hlc'' : lc' = cleanCol (some lc) "loyer_mensuel" lc :=
      (Option.some_inj.mp hlc').symm
    rw [hlc'', cleanCol_loyer] at ho
    have hkeep : ∀ x ∈ lc.filter keepRow, keepRow x = true :=
      fun x hx => (List.mem_filter.mp hx).2
    by_cases hd : dropNA (lc.filter keepRow) = []
    · rw [imputeCol_of_allNA hd] at ho
      cases o with
      | none => exact Or.inl rfl
      | some v =>
          refine Or.inr ⟨v, rfl, ?_⟩
          have := hkeep _ ho
          simpa [keepRow] using this
    · obtain ⟨m, hm, him⟩ := imputeCol_of_present hd
      rw [him] at ho
      obtain ⟨o', ho', rfl⟩ := List.mem_map.mp ho
      have hlb : ∀ x ∈ dropNA (lc.filter keepRow), (0:ℚ) ≤ x := by
        intro x hx
        obtain ⟨a, ha, hax⟩ := List.mem_filterMap.mp hx
        have hax' : a = some x := hax
        rw [hax'] at ha
        have := hkeep _ ha
        simpa [keepRow] using this
      have h0m : 0 ≤ m := quantile_lb (by norm_num) (by norm_num) hlb hm
      refine Or.inr ⟨o'.getD m, rfl, ?_⟩
      cases o' with
      | none => simpa using h0m
      | some w =>
          have := hkeep _ ho'
          simpa [keepRow] using this

/-- C4 witness: with rents 5, -3, missing, the negative row is dropped, the
    missing rent is retained and imputed with the median 5, output columns
    have length 2, and the output rent values are nonnegative. -/
theorem business_rule_witness :
    (("loyer_mensuel", ([some 5, some 5] : List Cell)).2.length =
        3 - ([some 5, some (-3), none] : List Cell).countP isBadRent) ∧
    ((some (5:ℚ) : Cell) = none ∨ ∃ v : ℚ, (some (5:ℚ) : Cell) = some v ∧ 0 ≤ v) := by
  have hl : (⟨[("loyer_mensuel", [some 5, some (-3), none]),
      ("age", [some 1, some 2, some 3])]⟩ : DataFrame).cols.lookup "loyer_mensuel" =
      some [some 5, some (-3), none] := rfl
  have hwf : ∀ p ∈ (⟨[("loyer_mensuel", [some 5, some (-3), none]),
      ("age", [some 1, some 2, some 3])]⟩ : DataFrame).cols, p.2.length = 3 := by
    intro p hp
    rcases List.mem_cons.mp hp with h | h
    · rw [h]
      rfl
    · rcases List.mem_cons.mp h with h2 | h2
      · rw [h2]
        rfl
      · simp at h2
  have hb := business_rule _ 3 [some 5, some (-3), none] hwf hl
  have hf : ([some 5, some (-3), none] : List Cell).filter keepRow = [some 5, none] := rfl
  have hq : quantile [some 5, none] (1/2) = some 5 := by
    norm_num [quantile, dropNA, interpAt, List.insertionSort, List.orderedInsert,
      List.filterMap_cons, List.getD, List.cons_ne_nil, Int.toNat_ofNat]
  have hlc' : (clean_dataset ⟨[("loyer_mensuel", [some 5, some (-3), none]),
      ("age", [some 1, some 2, some 3])]⟩).cols.lookup "loyer_mensuel" =
      some [some 5, some 5] := by
    rw [lookup_clean_dataset, hl]
    simp only [Option.map_some']
    rw [cleanCol_loyer, hf, imputeCol,
      if_pos (by decide : 0 < ([some 5, none] : List Cell).countP (fun o => o.isNone)), hq]
    rfl
  exact ⟨hb.1 _ (mem_of_lookup hlc'), hb.2 [some 5, some 5] hlc' (some 5) (by simp)⟩

/-! ### Claim C5: pass-through of non-policy columns -/

/-- C5: every column named in neither policy list nor equal to the business
    column comes out of the cleaner exactly equal to the raw input column
    restricted to the rows surviving stage 1. -/
theorem pass_through (df : DataFrame) (name : String) (c : List Cell)
    (ho : name ∉ cols_with_outliers) (hi : name ∉ cols_to_impute)
    (hb : name ≠ "loyer_mensuel")
    (hc : df.cols.lookup name = some c) :
    (clean_dataset df).cols.lookup name =
      some (survivors (df.cols.lookup "loyer_mensuel") c) := by
  rw [lookup_clean_dataset, hc]
  simp only [Option.map_some']
  rw [cleanCol, if_neg ho, if_neg hi]

/-- C5 witness: with rents 1 and -2, the non-policy column age keeps its raw
    value 10 on the surviving first row. -/
theorem pass_through_witness :
    ((clean_dataset ⟨[("loyer_mensuel", [some 1, some (-2)]),
        ("age", [some 10, some 20])]⟩).cols.lookup "age" =
      some (survivors ((⟨[("loyer_mensuel", [some 1, some (-2)]),
        ("age", [some 10, some 20])]⟩ : DataFrame).cols.lookup "loyer_mensuel")
          [some 10, some 20])) ∧
    survivors ((⟨[("loyer_mensuel", [some 1, some (-2)]),
        ("age", [some 10, some 20])]⟩ : DataFrame).cols.lookup "loyer_mensuel")
      [some 10, some 20] = [some 10] :=
  ⟨pass_through _ "age" _ (by decide) (by decide) (by decide) rfl, rfl⟩

/-! ### Claim C8: tolerance of absent policy columns -/

/-- C8: on a dataset lacking a policy column, the cleaner is total: the absent
    column is skipped (still absent in the output) and every present column is
    produced by the same columnwise function of its own raw values and the raw
    business column, unaffected by the absence. -/
theorem missing_column_tolerance (df : DataFrame) (name : String)
    (hm : name = "loyer_mensuel" ∨ name ∈ cols_with_outliers ∨ name ∈ cols_to_impute)
    (habs : df.cols.lookup name = none) :
    (clean_dataset df).cols.lookup name = none ∧
    (∀ n c, df.cols.lookup n = some c →
      (clean_dataset df).cols.lookup n =
        some (cleanCol (df.cols.lookup "loyer_mensuel") n c)) := by
  constructor
  · rw [lookup_clean_dataset, habs]
    rfl
  · intro n c hc
    rw [lookup_clean_dataset, hc]
    rfl

/-- C8 witness: a dataset with only an age column lacks the outlier column
    taille; the cleaner skips it and passes age through the columnwise
    pipeline. -/
theorem missing_column_tolerance_witness :
    ((clean_dataset ⟨[("age", [some 1])]⟩).cols.lookup "taille" = none) ∧
    ((clean_dataset ⟨[("age", [some 1])]⟩).cols.lookup "age" =
      some (cleanCol ((⟨[("age", [some 1])]⟩ : DataFrame).cols.lookup "loyer_mensuel")
        "age" [some 1])) :=
  ⟨(missing_column_tolerance ⟨[("age", [some 1])]⟩ "taille"
      (Or.inr (Or.inl (by decide))) rfl).1,
   (missing_column_tolerance ⟨[("age", [some 1])]⟩ "taille"
      (Or.inr (Or.inl (by decide))) rfl).2 "age" [some 1] rfl⟩

/-! ### Claim C9: the cleaner does not mutate its argument -/

/-- Reading below the end of a heap is unaffected by an allocation. -/
lemma heapRead_append_lt (h : Heap) (v : DataFrame) {a : ℕ} (ha : a < h.length) :
    heapRead (h ++ [v]) a = heapRead h a := by
  rw [heapRead, heapRead, List.getD_eq_getElem?_getD, List.getD_eq_getElem?_getD,
    List.getElem?_append_left ha]

/-- Reading a freshly allocated address yields the allocated object. -/
lemma heapRead_append_self (h : Heap) (v : DataFrame) :
    heapRead (h ++ [v]) h.length = v := by
  rw [heapRead, List.getD_eq_getElem?_getD, List.getElem?_concat_length]
  rfl

/-- Reading another address is unaffected by a write. -/
lemma heapRead_set_ne (h : Heap) (v : DataFrame) {a b : ℕ} (hab : b ≠ a) :
    heapRead (h.set b v) a = heapRead h a := by
  rw [heapRead, heapRead, List.getD_eq_getElem?_getD, List.getD_eq_getElem?_getD,
    List.getElem?_set_ne hab]

/-- Reading a written address yields the written object. -/
lemma heapRead_set_self (h : Heap) (v : DataFrame) {b : ℕ} (hb : b < h.length) :
    heapRead (h.set b v) b = v := by
  rw [heapRead, List.getD_eq_getElem?_getD, List.getElem?_set_self hb]
  rfl

/-- C9: calling clean_dataset never mutates the caller's dataframe object: the
    object at the argument address is unchanged by the call, and the returned
    object holds exactly the value of the pure clean_dataset transform. -/
theorem clean_dataset_no_mutation (h : Heap) (a : ℕ) (ha : a < h.length) :
    heapRead (clean_dataset_heap h a).1 a = heapRead h a ∧
    heapRead (clean_dataset_heap h a).1 (clean_dataset_heap h a).2 =
      clean_dataset (heapRead h a) := by
  have hb : heapRead (h ++ [heapRead h a]) h.length = heapRead h a :=
    heapRead_append_self h (heapRead h a)
  rcases hcase : (heapRead h a).cols.lookup "loyer_mensuel" with _ | lc
  · have hshape : clean_dataset_heap h a =
        (((h ++ [heapRead h a]).set h.length (stage2 (heapRead h a))).set h.length
            (stage3 (stage2 (heapRead h a))), h.length) := by
      simp only [clean_dataset_heap, heapAlloc, heapWrite]
      rw [hb, hcase]
      dsimp only
      rw [hb]
      have hlt : h.length < (h ++ [heapRead h a]).length := by simp
      rw [heapRead_set_self _ _ hlt]
    have hane : h.length ≠ a := (ne_of_lt ha).symm
    have hst1 : stage1 (heapRead h a) = heapRead h a := by
      rw [stage1, hcase]
    constructor
    · rw [hshape]
      show heapRead _ a = _
      rw [heapRead_set_ne _ _ hane, heapRead_set_ne _ _ hane, heapRead_append_lt _ _ ha]
    · rw [hshape]
      show heapRead _ h.length = _
      rw [heapRead_set_self _ _ (by simp), clean_dataset, hst1]
  · have hshape : clean_dataset_heap h a =
        ((((h ++ [heapRead h a]) ++ [stage1 (heapRead h a)]).set (h.length + 1)
              (stage2 (stage1 (heapRead h a)))).set (h.length + 1)
            (stage3 (stage2 (stage1 (heapRead h a)))), h.length + 1) := by
      simp only [clean_dataset_heap, heapAlloc, heapWrite]
      rw [hb, hcase]
      dsimp only
      have hlen1 : (h ++ [heapRead h a]).length = h.length + 1 := by simp
      have hb2 : heapRead ((h ++ [heapRead h a]) ++ [stage1 (heapRead h a)])
          (h ++ [heapRead h a]).length = stage1 (heapRead h a) :=
        heapRead_append_self _ _
      rw [hlen1] at hb2
      rw [hlen1, hb2]
      have hlt : h.length + 1 < ((h ++ [heapRead h a]) ++ [stage1 (heapRead h a)]).length := by
        simp
      rw [heapRead_set_self _ _ hlt]
    have hane : h.length + 1 ≠ a := by omega
    constructor
    · rw [hshape]
      show heapRead _ a = _
      rw [heapRead_set_ne _ _ hane, heapRead_set_ne _ _ hane,
        heapRead_append_lt _ _ (by simp; omega),
        heapRead_append_lt _ _ ha]
    · rw [hshape]
      show heapRead _ (h.length + 1) = _
      rw [heapRead_set_self _ _ (by simp), clean_dataset]

/-- C9 witness: on a one-frame heap, cleaning the frame at address 0 leaves
    that frame intact and returns the cleaned value at a fresh address. -/
theorem clean_dataset_no_mutation_witness :
    heapRead (clean_dataset_heap [⟨[("age", [some 3])]⟩] 0).1 0 =
      heapRead [(⟨[("age", [some 3])]⟩ : DataFrame)] 0 ∧
    heapRead (clean_dataset_heap [⟨[("age", [some 3])]⟩] 0).1
        (clean_dataset_heap [⟨[("age", [some 3])]⟩] 0).2 =
      clean_dataset (heapRead [(⟨[("age", [some 3])]⟩ : DataFrame)] 0) :=
  clean_dataset_no_mutation [⟨[("age", [some 3])]⟩] 0 (by decide)

end Pipeline
